import Mathlib

/-!
Verification of a generic binary search tree (BST) implementation
(`src/include/bst.hpp`): an inductive tree with recursive `insert`,
`remove`, `contain`, `find_node`, the three depth-first traversals, and
the iterative `min`/`max` helpers, embedded as pure Lean functions with
explicit state passing (the C++ mutates a `TreeNode*&`; here each
mutating operation returns the boolean result paired with the new tree).
A null pointer is modelled as the `nil` constructor.
-/

set_option maxHeartbeats 1000000
set_option linter.unusedSectionVars false

universe u

/-- A `BST<T>::TreeNode` hierarchy: `nil` is a null child pointer, `node`
holds `data`, `left` and `right` exactly as the C++ struct does. -/
inductive TreeNode (α : Type u) : Type u where
  | nil : TreeNode α
  | node (data : α) (left : TreeNode α) (right : TreeNode α) : TreeNode α
deriving DecidableEq, Repr

namespace BST

variable {α : Type u} [LinearOrder α]

/-- Number of nodes of a tree (used as a measure; not in the C++ source). -/
def size : TreeNode α → Nat
  | .nil => 0
  | .node _ l r => size l + size r + 1

/-- `BST<T>::TreeNode::min()` called on a node with data `d` and left child
`l`: the iterative descent `while (current->left != nullptr) current =
current->left`, returning the data of the final node. -/
def minData : α → TreeNode α → α
  | d, .nil => d
  | _, .node d1 l1 _ => minData d1 l1

/-- `BST<T>::TreeNode::max()` called on a node with data `d` and right child
`r`: the iterative descent `while (current->right != nullptr) current =
current->right`, returning the data of the final node. -/
def maxData : α → TreeNode α → α
  | d, .nil => d
  | _, .node d1 _ r1 => maxData d1 r1

/-- `BST<T>::insert(TreeNode*& node, const T& value)`: returns the boolean
result together with the updated subtree (the C++ updates `node` in place). -/
def insert : TreeNode α → α → Bool × TreeNode α
  | .nil, value => (true, .node value .nil .nil)
  | .node d l r, value =>
    if value < d then
      let p := insert l value
      (p.1, .node d p.2 r)
    else if d < value then
      let p := insert r value
      (p.1, .node d l p.2)
    else
      (false, .node d l r)

/-- `BST<T>::contain(const TreeNode* const node, const T& value)`. -/
def contain : TreeNode α → α → Bool
  | .nil, _ => false
  | .node d l r, value =>
    if value < d then contain l value
    else if d < value then contain r value
    else true

/-- `BST<T>::remove(TreeNode*& node, const T& value)`: descends by
comparison; on the found node distinguishes the four structural cases
(leaf, only right child, only left child, two children); in the
two-children case copies `node->right->min()`'s data into the node and
recursively removes that value from the right subtree. -/
def remove : TreeNode α → α → Bool × TreeNode α
  | .nil, _ => (false, .nil)
  | .node d l r, value =>
    if value < d then
      let p := remove l value
      (p.1, .node d p.2 r)
    else if d < value then
      let p := remove r value
      (p.1, .node d l p.2)
    else
      match l, r with
      | .nil, .nil => (true, .nil)
      | .nil, .node rd rl rr => (true, .node rd rl rr)
      | .node ld ll lr, .nil => (true, .node ld ll lr)
      | .node ld ll lr, .node rd rl rr =>
        let s := minData rd rl
        let p := remove (.node rd rl rr) s
        (true, .node s (.node ld ll lr) p.2)

/-- `BST<T>::in_order`: left subtree, current value, right subtree. -/
def in_order : TreeNode α → List α
  | .nil => []
  | .node d l r => in_order l ++ d :: in_order r

/-- `BST<T>::pre_order`: current value, left subtree, right subtree. -/
def pre_order : TreeNode α → List α
  | .nil => []
  | .node d l r => d :: (pre_order l ++ pre_order r)

/-- `BST<T>::post_order`: left subtree, right subtree, current value. -/
def post_order : TreeNode α → List α
  | .nil => []
  | .node d l r => post_order l ++ post_order r ++ [d]

/-- `BST<T>::find_node(TreeNode* node, const T& value)`: returns the found
node (modelled as the subtree rooted at it) or `none` for `nullptr`. -/
def find_node : TreeNode α → α → Option (TreeNode α)
  | .nil, _ => none
  | .node d l r, value =>
    if value < d then find_node l value
    else if d < value then find_node r value
    else some (.node d l r)

/-- The data stored at the root node, if any (`root->data`). -/
def rootData : TreeNode α → Option α
  | .nil => none
  | .node d _ _ => some d

/-- The BST ordering invariant of the spec: at every node, all values of
the left subtree are strictly below the node's value and all values of the
right subtree strictly above it. -/
def BSTInv : TreeNode α → Prop
  | TreeNode.nil => True
  | TreeNode.node d l r =>
      (∀ x ∈ in_order l, x < d) ∧ (∀ x ∈ in_order r, d < x) ∧ BSTInv l ∧ BSTInv r

instance instDecBSTInv : (t : TreeNode α) → Decidable (BSTInv t)
  | TreeNode.nil => .isTrue trivial
  | TreeNode.node d l r =>
      have hl : Decidable (BSTInv l) := instDecBSTInv l
      have hr : Decidable (BSTInv r) := instDecBSTInv r
      decidable_of_iff
        ((∀ x ∈ in_order l, x < d) ∧ (∀ x ∈ in_order r, d < x) ∧ BSTInv l ∧ BSTInv r)
        (by simp [BSTInv])

/-- A call in a history: `BST<T>::insert(value)` or `BST<T>::remove(value)`. -/
inductive Op (α : Type u) : Type u where
  | ins (value : α) : Op α
  | rem (value : α) : Op α

/-- The tree state after one public `insert`/`remove` call (the C++ object
mutates `root`; here the new root is returned). -/
def applyOp (t : TreeNode α) : Op α → TreeNode α
  | .ins v => (insert t v).2
  | .rem v => (remove t v).2

/-- The tree state after a finite sequence of `insert`/`remove` calls. -/
def applyOps (t : TreeNode α) (ops : List (Op α)) : TreeNode α :=
  ops.foldl applyOp t

/-- The concrete removal scenario of the spec: insert 50, 30, 70, 20, 40,
60, 80 into an empty tree, then remove 50. -/
def scenario : TreeNode Int :=
  applyOps TreeNode.nil
    [Op.ins 50, Op.ins 30, Op.ins 70, Op.ins 20, Op.ins 40, Op.ins 60,
     Op.ins 80, Op.rem 50]

/-- Modelled from the spec: one step of the reference membership of §8,
"for all values v inserted and not subsequently removed, contains(v) is
true; for all v never inserted (or inserted then removed), contains(v) is
false" — an insert of `v` makes it a member, a remove of `v` ends its
membership, calls naming other values leave it unchanged. -/
def specMemStep (v : α) (b : Bool) : Op α → Bool
  | .ins w => if w = v then true else b
  | .rem w => if w = v then false else b

/-- Modelled from the spec: the reference membership of `v` after a call
history starting from the empty tree (see `specMemStep`). -/
def specMemAfter (ops : List (Op α)) (v : α) : Bool :=
  ops.foldl (specMemStep v) false

/-- One public call together with the success counters: applies the call
and increments the matching counter exactly when the call returns `true`. -/
def runStep : TreeNode α × Nat × Nat → Op α → TreeNode α × Nat × Nat
  | (t, i, r), .ins v =>
    ((insert t v).2, if (insert t v).1 then i + 1 else i, r)
  | (t, i, r), .rem v =>
    ((remove t v).2, i, if (remove t v).1 then r + 1 else r)

/-- Run a call history from the empty tree, counting successful inserts
and successful removes. -/
def run (ops : List (Op α)) : TreeNode α × Nat × Nat :=
  ops.foldl runStep (TreeNode.nil, 0, 0)

/-- Fuel-bounded interpreter of `insert`: each recursive call consumes one
unit of fuel; `none` means the fuel ran out. With fuel exceeding the node
count it always completes (see the termination claim). -/
def insertF : Nat → TreeNode α → α → Option (Bool × TreeNode α)
  | 0, _, _ => none
  | _ + 1, TreeNode.nil, value =>
    some (true, TreeNode.node value TreeNode.nil TreeNode.nil)
  | n + 1, TreeNode.node d l r, value =>
    if value < d then
      (insertF n l value).map (fun p => (p.1, TreeNode.node d p.2 r))
    else if d < value then
      (insertF n r value).map (fun p => (p.1, TreeNode.node d l p.2))
    else some (false, TreeNode.node d l r)

/-- Fuel-bounded interpreter of `contain`. -/
def containF : Nat → TreeNode α → α → Option Bool
  | 0, _, _ => none
  | _ + 1, TreeNode.nil, _ => some false
  | n + 1, TreeNode.node d l r, value =>
    if value < d then containF n l value
    else if d < value then containF n r value
    else some true

/-- Fuel-bounded interpreter of `find_node`. -/
def find_nodeF : Nat → TreeNode α → α → Option (Option (TreeNode α))
  | 0, _, _ => none
  | _ + 1, TreeNode.nil, _ => some none
  | n + 1, TreeNode.node d l r, value =>
    if value < d then find_nodeF n l value
    else if d < value then find_nodeF n r value
    else some (some (TreeNode.node d l r))

/-- Fuel-bounded interpreter of `remove` (the two-children case re-invokes
the interpreter on the right subtree with the successor's value, exactly
as the source does). -/
def removeF : Nat → TreeNode α → α → Option (Bool × TreeNode α)
  | 0, _, _ => none
  | _ + 1, TreeNode.nil, _ => some (false, TreeNode.nil)
  | n + 1, TreeNode.node d l r, value =>
    if value < d then
      (removeF n l value).map (fun p => (p.1, TreeNode.node d p.2 r))
    else if d < value then
      (removeF n r value).map (fun p => (p.1, TreeNode.node d l p.2))
    else
      match l, r with
      | TreeNode.nil, TreeNode.nil => some (true, TreeNode.nil)
      | TreeNode.nil, TreeNode.node rd rl rr => some (true, TreeNode.node rd rl rr)
      | TreeNode.node ld ll lr, TreeNode.nil => some (true, TreeNode.node ld ll lr)
      | TreeNode.node ld ll lr, TreeNode.node rd rl rr =>
        (removeF n (TreeNode.node rd rl rr) (minData rd rl)).map
          (fun p => (true, TreeNode.node (minData rd rl)
            (TreeNode.node ld ll lr) p.2))

/-- Fuel-bounded interpreter of `in_order`. -/
def in_orderF : Nat → TreeNode α → Option (List α)
  | 0, _ => none
  | _ + 1, TreeNode.nil => some []
  | n + 1, TreeNode.node d l r =>
    (in_orderF n l).bind (fun a => (in_orderF n r).map (fun b => a ++ d :: b))

/-- Fuel-bounded interpreter of `pre_order`. -/
def pre_orderF : Nat → TreeNode α → Option (List α)
  | 0, _ => none
  | _ + 1, TreeNode.nil => some []
  | n + 1, TreeNode.node d l r =>
    (pre_orderF n l).bind (fun a => (pre_orderF n r).map (fun b => d :: (a ++ b)))

/-- Fuel-bounded interpreter of `post_order`. -/
def post_orderF : Nat → TreeNode α → Option (List α)
  | 0, _ => none
  | _ + 1, TreeNode.nil => some []
  | n + 1, TreeNode.node d l r =>
    (post_orderF n l).bind (fun a => (post_orderF n r).map (fun b => a ++ b ++ [d]))

/-- Fuel-bounded interpreter of the iterative `TreeNode::min` loop: one
unit of fuel per loop iteration. -/
def minF : Nat → α → TreeNode α → Option α
  | 0, _, _ => none
  | _ + 1, d, TreeNode.nil => some d
  | n + 1, _, TreeNode.node d1 l1 _ => minF n d1 l1

/-- Fuel-bounded interpreter of the iterative `TreeNode::max` loop. -/
def maxF : Nat → α → TreeNode α → Option α
  | 0, _, _ => none
  | _ + 1, d, TreeNode.nil => some d
  | n + 1, _, TreeNode.node d1 _ r1 => maxF n d1 r1

theorem remove_lt {d v : α} (l r : TreeNode α) (h : v < d) :
    remove (TreeNode.node d l r) v
      = ((remove l v).1, TreeNode.node d (remove l v).2 r) := by
  rw [remove.eq_def]
  simp [h]

theorem remove_gt {d v : α} (l r : TreeNode α) (h1 : ¬ v < d) (h2 : d < v) :
    remove (TreeNode.node d l r) v
      = ((remove r v).1, TreeNode.node d l (remove r v).2) := by
  rw [remove.eq_def]
  simp [h1, h2]

theorem remove_leaf {d v : α} (h1 : ¬ v < d) (h2 : ¬ d < v) :
    remove (TreeNode.node d TreeNode.nil TreeNode.nil) v
      = (true, TreeNode.nil) := by
  rw [remove.eq_def]
  simp [h1, h2]

theorem remove_only_right {d v rd : α} (rl rr : TreeNode α)
    (h1 : ¬ v < d) (h2 : ¬ d < v) :
    remove (TreeNode.node d TreeNode.nil (TreeNode.node rd rl rr)) v
      = (true, TreeNode.node rd rl rr) := by
  rw [remove.eq_def]
  simp [h1, h2]

theorem remove_only_left {d v ld : α} (ll lr : TreeNode α)
    (h1 : ¬ v < d) (h2 : ¬ d < v) :
    remove (TreeNode.node d (TreeNode.node ld ll lr) TreeNode.nil) v
      = (true, TreeNode.node ld ll lr) := by
  rw [remove.eq_def]
  simp [h1, h2]

theorem remove_two_children_eq {d v ld rd : α} (ll lr rl rr : TreeNode α)
    (h1 : ¬ v < d) (h2 : ¬ d < v) :
    remove (TreeNode.node d (TreeNode.node ld ll lr) (TreeNode.node rd rl rr)) v
      = (true, TreeNode.node (minData rd rl) (TreeNode.node ld ll lr)
          (remove (TreeNode.node rd rl rr) (minData rd rl)).2) := by
  rw [remove.eq_def]
  simp [h1, h2]

theorem length_in_order (t : TreeNode α) : (in_order t).length = size t := by
  induction t with
  | nil => simp [in_order, size]
  | node d l r ihl ihr => simp [in_order, size, ihl, ihr]; omega

theorem in_order_ne_nil (d : α) (l r : TreeNode α) :
    in_order (TreeNode.node d l r) ≠ [] := by
  simp [in_order]

theorem head_in_order (l : TreeNode α) :
    ∀ (d : α) (r : TreeNode α),
      ∃ tl, in_order (TreeNode.node d l r) = minData d l :: tl := by
  induction l with
  | nil => intro d r; exact ⟨in_order r, by simp [in_order, minData]⟩
  | node d1 l1 r1 ihl ihr =>
    intro d r
    obtain ⟨tl, htl⟩ := ihl d1 r1
    refine ⟨tl ++ d :: in_order r, ?_⟩
    have : in_order (TreeNode.node d (TreeNode.node d1 l1 r1) r)
        = in_order (TreeNode.node d1 l1 r1) ++ d :: in_order r := rfl
    rw [this, htl]
    simp [minData]

theorem minData_mem (d : α) (l r : TreeNode α) :
    minData d l ∈ in_order (TreeNode.node d l r) := by
  obtain ⟨tl, htl⟩ := head_in_order l d r
  rw [htl]
  exact List.mem_cons_self _ _

theorem bstInv_iff_pairwise (t : TreeNode α) :
    BSTInv t ↔ (in_order t).Pairwise (· < ·) := by
  induction t with
  | nil => simp [BSTInv, in_order]
  | node d l r ihl ihr =>
    simp only [BSTInv, in_order, List.pairwise_append, List.pairwise_cons, ihl, ihr]
    constructor
    · rintro ⟨h1, h2, h3, h4⟩
      refine ⟨h3, ⟨h2, h4⟩, ?_⟩
      intro x hx y hy
      rcases List.mem_cons.mp hy with rfl | hy
      · exact h1 x hx
      · exact lt_trans (h1 x hx) (h2 y hy)
    · rintro ⟨h3, ⟨h2, h4⟩, h1⟩
      exact ⟨fun x hx => h1 x hx d (List.mem_cons_self _ _), h2, h3, h4⟩

theorem bstInv_nodup (t : TreeNode α) (h : BSTInv t) : (in_order t).Nodup :=
  ((bstInv_iff_pairwise t).mp h).imp ne_of_lt

theorem mem_in_order_node {d x : α} {l r : TreeNode α} :
    x ∈ in_order (TreeNode.node d l r) ↔
      x ∈ in_order l ∨ x = d ∨ x ∈ in_order r := by
  simp [in_order]

theorem insert_false_eq (t : TreeNode α) (v : α)
    (h : (insert t v).1 = false) : (insert t v).2 = t := by
  induction t with
  | nil => simp [insert] at h
  | node d l r ihl ihr =>
    by_cases h1 : v < d
    · simp only [insert, if_pos h1] at h ⊢
      rw [ihl h]
    · by_cases h2 : d < v
      · simp only [insert, if_neg h1, if_pos h2] at h ⊢
        rw [ihr h]
      · simp [insert, if_neg h1, if_neg h2]

theorem insert_false_mem (t : TreeNode α) (v : α)
    (h : (insert t v).1 = false) : v ∈ in_order t := by
  induction t with
  | nil => simp [insert] at h
  | node d l r ihl ihr =>
    by_cases h1 : v < d
    · simp only [insert, if_pos h1] at h
      exact mem_in_order_node.mpr (Or.inl (ihl h))
    · by_cases h2 : d < v
      · simp only [insert, if_neg h1, if_pos h2] at h
        exact mem_in_order_node.mpr (Or.inr (Or.inr (ihr h)))
      · exact mem_in_order_node.mpr (Or.inr (Or.inl (le_antisymm
          (le_of_not_lt h2) (le_of_not_lt h1))))

theorem insert_true_perm (t : TreeNode α) (v : α)
    (h : (insert t v).1 = true) :
    List.Perm (in_order (insert t v).2) (v :: in_order t) := by
  induction t with
  | nil => simp [insert, in_order]
  | node d l r ihl ihr =>
    by_cases h1 : v < d
    · simp only [insert, if_pos h1] at h ⊢
      exact (ihl h).append_right (d :: in_order r)
    · by_cases h2 : d < v
      · simp only [insert, if_neg h1, if_pos h2] at h ⊢
        exact (((ihr h).cons d).append_left (in_order l)).trans
          (((List.Perm.swap v d (in_order r)).append_left (in_order l)).trans
            List.perm_middle)
      · simp [insert, if_neg h1, if_neg h2] at h

theorem mem_insert_iff (t : TreeNode α) (v x : α) :
    x ∈ in_order (insert t v).2 ↔ x = v ∨ x ∈ in_order t := by
  cases hb : (insert t v).1 with
  | false =>
    rw [insert_false_eq t v hb]
    constructor
    · exact Or.inr
    · rintro (hxv | hx)
      · rw [hxv]
        exact insert_false_mem t v hb
      · exact hx
  | true =>
    rw [(insert_true_perm t v hb).mem_iff, List.mem_cons]

theorem insert_bst (t : TreeNode α) (v : α) (h : BSTInv t) :
    BSTInv (insert t v).2 := by
  induction t with
  | nil => simp [insert, BSTInv, in_order]
  | node d l r ihl ihr =>
    simp only [BSTInv] at h
    obtain ⟨h1, h2, h3, h4⟩ := h
    by_cases hv1 : v < d
    · simp only [insert, if_pos hv1]
      simp only [BSTInv]
      refine ⟨?_, h2, ihl h3, h4⟩
      intro x hx
      rcases (mem_insert_iff l v x).mp hx with rfl | hx
      · exact hv1
      · exact h1 x hx
    · by_cases hv2 : d < v
      · simp only [insert, if_neg hv1, if_pos hv2]
        simp only [BSTInv]
        refine ⟨h1, ?_, h3, ihr h4⟩
        intro x hx
        rcases (mem_insert_iff r v x).mp hx with rfl | hx
        · exact hv2
        · exact h2 x hx
      · simp only [insert, if_neg hv1, if_neg hv2]
        simp only [BSTInv]
        exact ⟨h1, h2, h3, h4⟩

theorem contain_iff_mem (t : TreeNode α) (v : α) (h : BSTInv t) :
    contain t v = true ↔ v ∈ in_order t := by
  induction t with
  | nil => simp [contain, in_order]
  | node d l r ihl ihr =>
    simp only [BSTInv] at h
    obtain ⟨h1, h2, h3, h4⟩ := h
    by_cases hv1 : v < d
    · rw [show contain (TreeNode.node d l r) v = contain l v by
        simp [contain, if_pos hv1]]
      rw [ihl h3, mem_in_order_node]
      constructor
      · exact Or.inl
      · rintro (hx | rfl | hx)
        · exact hx
        · exact absurd hv1 (lt_irrefl _)
        · exact absurd (lt_trans hv1 (h2 v hx)) (lt_irrefl _)
    · by_cases hv2 : d < v
      · rw [show contain (TreeNode.node d l r) v = contain r v by
          simp [contain, if_neg hv1, if_pos hv2]]
        rw [ihr h4, mem_in_order_node]
        constructor
        · exact fun hx => Or.inr (Or.inr hx)
        · rintro (hx | rfl | hx)
          · exact absurd (lt_trans hv2 (h1 v hx)) (lt_irrefl _)
          · exact absurd hv2 (lt_irrefl _)
          · exact hx
      · have hvd : v = d := le_antisymm (le_of_not_lt hv2) (le_of_not_lt hv1)
        constructor
        · intro _
          exact mem_in_order_node.mpr (Or.inr (Or.inl hvd))
        · intro _
          simp [contain, hv1, hv2]

theorem find_node_none (t : TreeNode α) (v : α) (h : BSTInv t)
    (hm : v ∉ in_order t) : find_node t v = none := by
  induction t with
  | nil => simp [find_node]
  | node d l r ihl ihr =>
    simp only [BSTInv] at h
    obtain ⟨h1, h2, h3, h4⟩ := h
    rw [mem_in_order_node] at hm
    push_neg at hm
    obtain ⟨hml, hmd, hmr⟩ := hm
    by_cases hv1 : v < d
    · rw [show find_node (TreeNode.node d l r) v = find_node l v by
        simp [find_node, if_pos hv1]]
      exact ihl h3 hml
    · by_cases hv2 : d < v
      · rw [show find_node (TreeNode.node d l r) v = find_node r v by
          simp [find_node, if_neg hv1, if_pos hv2]]
        exact ihr h4 hmr
      · exact absurd (le_antisymm (le_of_not_lt hv2) (le_of_not_lt hv1)) hmd

theorem remove_fst_eq_contain (t : TreeNode α) (v : α) :
    (remove t v).1 = contain t v := by
  induction t with
  | nil => simp [remove, contain]
  | node d l r ihl ihr =>
    by_cases hv1 : v < d
    · rw [remove_lt l r hv1]
      simp only [contain, if_pos hv1]
      exact ihl
    · by_cases hv2 : d < v
      · rw [remove_gt l r hv1 hv2]
        simp only [contain, if_neg hv1, if_pos hv2]
        exact ihr
      · cases l with
        | nil => cases r with
          | nil => rw [remove_leaf hv1 hv2]; simp [contain, hv1, hv2]
          | node rd rl rr =>
            rw [remove_only_right rl rr hv1 hv2]; simp [contain, hv1, hv2]
        | node ld ll lr => cases r with
          | nil => rw [remove_only_left ll lr hv1 hv2]; simp [contain, hv1, hv2]
          | node rd rl rr =>
            rw [remove_two_children_eq ll lr rl rr hv1 hv2]
            simp [contain, hv1, hv2]

theorem remove_false_eq (t : TreeNode α) (v : α)
    (h : (remove t v).1 = false) : (remove t v).2 = t := by
  induction t with
  | nil => simp [remove]
  | node d l r ihl ihr =>
    by_cases hv1 : v < d
    · rw [remove_lt l r hv1] at h ⊢
      simp only at h ⊢
      rw [ihl h]
    · by_cases hv2 : d < v
      · rw [remove_gt l r hv1 hv2] at h ⊢
        simp only at h ⊢
        rw [ihr h]
      · exfalso
        cases l with
        | nil => cases r with
          | nil => rw [remove_leaf hv1 hv2] at h; simp at h
          | node rd rl rr => rw [remove_only_right rl rr hv1 hv2] at h; simp at h
        | node ld ll lr => cases r with
          | nil => rw [remove_only_left ll lr hv1 hv2] at h; simp at h
          | node rd rl rr =>
            rw [remove_two_children_eq ll lr rl rr hv1 hv2] at h
            simp at h

theorem in_order_remove : ∀ (t : TreeNode α) (v : α), BSTInv t →
    in_order (remove t v).2 = (in_order t).erase v := by
  intro t
  induction t with
  | nil => intro v _; simp [remove, in_order]
  | node d l r ihl ihr =>
    intro v h
    simp only [BSTInv] at h
    obtain ⟨h1, h2, h3, h4⟩ := h
    have hio : in_order (TreeNode.node d l r) = in_order l ++ d :: in_order r := rfl
    by_cases hv1 : v < d
    · rw [remove_lt l r hv1]
      have hio2 : in_order ((remove l v).1, TreeNode.node d (remove l v).2 r).2
          = in_order (remove l v).2 ++ d :: in_order r := rfl
      rw [hio2, ihl v h3, hio]
      have hvr : v ∉ in_order r := fun hm =>
        absurd (lt_trans hv1 (h2 v hm)) (lt_irrefl v)
      by_cases hm : v ∈ in_order l
      · rw [List.erase_append_left (d :: in_order r) hm]
      · rw [List.erase_of_not_mem hm, List.erase_append_right _ hm,
          List.erase_cons_tail (by simp [(ne_of_lt hv1).symm]),
          List.erase_of_not_mem hvr]
    · by_cases hv2 : d < v
      · rw [remove_gt l r hv1 hv2]
        have hio2 : in_order ((remove r v).1, TreeNode.node d l (remove r v).2).2
            = in_order l ++ d :: in_order (remove r v).2 := rfl
        rw [hio2, ihr v h4, hio]
        have hvl : v ∉ in_order l := fun hm =>
          absurd (lt_trans hv2 (h1 v hm)) (lt_irrefl d)
        rw [List.erase_append_right _ hvl,
          List.erase_cons_tail (by simp [(ne_of_gt hv2).symm])]
      · have hvd : v = d := le_antisymm (le_of_not_lt hv2) (le_of_not_lt hv1)
        have hdl : d ∉ in_order l := fun hm => absurd (h1 d hm) (lt_irrefl d)
        cases l with
        | nil =>
          cases r with
          | nil =>
            rw [remove_leaf hv1 hv2, hvd]
            simp [in_order]
          | node rd rl rr =>
            rw [remove_only_right rl rr hv1 hv2, hvd]
            simp [hio, in_order]
        | node ld ll lr =>
          cases r with
          | nil =>
            rw [remove_only_left ll lr hv1 hv2, hvd, hio,
              List.erase_append_right _ hdl]
            simp [in_order]
          | node rd rl rr =>
            rw [remove_two_children_eq ll lr rl rr hv1 hv2]
            have hio2 : in_order (true, TreeNode.node (minData rd rl)
                (TreeNode.node ld ll lr)
                (remove (TreeNode.node rd rl rr) (minData rd rl)).2).2
              = in_order (TreeNode.node ld ll lr) ++ minData rd rl ::
                  in_order (remove (TreeNode.node rd rl rr) (minData rd rl)).2 := rfl
            rw [hio2, ihr (minData rd rl) h4]
            obtain ⟨tl, htl⟩ := head_in_order rl rd rr
            rw [htl, hio, htl, hvd, List.erase_append_right _ hdl]
            simp

theorem remove_bst (t : TreeNode α) (v : α) (h : BSTInv t) :
    BSTInv (remove t v).2 := by
  rw [bstInv_iff_pairwise] at h ⊢
  rw [in_order_remove t v ((bstInv_iff_pairwise t).mpr h)]
  exact h.sublist (List.erase_sublist v (in_order t))

theorem insert_true_size (t : TreeNode α) (v : α) (h : (insert t v).1 = true) :
    size (insert t v).2 = size t + 1 := by
  have hp := (insert_true_perm t v h).length_eq
  rw [length_in_order] at hp
  simp only [List.length_cons, length_in_order] at hp
  exact hp

theorem applyOp_bst (t : TreeNode α) (op : Op α) (h : BSTInv t) :
    BSTInv (applyOp t op) := by
  cases op with
  | ins v => exact insert_bst t v h
  | rem v => exact remove_bst t v h

theorem applyOps_bst (ops : List (Op α)) :
    ∀ t : TreeNode α, BSTInv t → BSTInv (applyOps t ops) := by
  induction ops with
  | nil => exact fun t h => h
  | cons op ops ih =>
    intro t h
    exact ih (applyOp t op) (applyOp_bst t op h)

theorem pre_order_perm (t : TreeNode α) :
    List.Perm (pre_order t) (in_order t) := by
  induction t with
  | nil => simp [pre_order, in_order]
  | node d l r ihl ihr =>
    exact ((ihl.append ihr).cons d).trans List.perm_middle.symm

theorem post_order_perm (t : TreeNode α) :
    List.Perm (post_order t) (in_order t) := by
  induction t with
  | nil => simp [post_order, in_order]
  | node d l r ihl ihr =>
    have h1 := (ihl.append ihr).append_right [d]
    have h3 := @List.perm_middle α d (in_order l ++ in_order r) []
    rw [List.append_nil] at h3
    exact h1.trans (h3.trans List.perm_middle.symm)

/-- Claim C1: starting from the empty tree, any finite sequence of
`insert`/`remove` calls yields a tree satisfying the BST ordering
invariant, and consequently its `in_order()` output is strictly ascending
(pairwise `<`), hence duplicate-free. -/
theorem claim_C1 (ops : List (Op α)) :
    BSTInv (applyOps TreeNode.nil ops)
    ∧ (in_order (applyOps TreeNode.nil ops)).Pairwise (· < ·)
    ∧ (in_order (applyOps TreeNode.nil ops)).Nodup := by
  have h := applyOps_bst ops TreeNode.nil trivial
  exact ⟨h, (bstInv_iff_pairwise _).mp h, bstInv_nodup _ h⟩

/-- Claim C2: `insert` either returns `true`, having created exactly one
new node holding `v` (size grows by one, `v` is now present, and the
stored multiset gains exactly `v`), or returns `false`, leaving the tree
unchanged because the descent reached a node whose value equals `v`
(so `v` was already present). -/
theorem claim_C2 (t : TreeNode α) (v : α) :
    ((insert t v).1 = true
        ∧ size (insert t v).2 = size t + 1
        ∧ v ∈ in_order (insert t v).2
        ∧ List.Perm (in_order (insert t v).2) (v :: in_order t))
    ∨ ((insert t v).1 = false
        ∧ (insert t v).2 = t
        ∧ v ∈ in_order t) := by
  cases hb : (insert t v).1 with
  | true =>
    exact Or.inl ⟨rfl, insert_true_size t v hb,
      (mem_insert_iff t v v).mpr (Or.inl rfl), insert_true_perm t v hb⟩
  | false =>
    exact Or.inr ⟨rfl, insert_false_eq t v hb, insert_false_mem t v hb⟩

/-- Claim C8: the three traversals enumerate exactly the same elements
(membership coincides) and have equal lengths; they differ only in the
order of emission. -/
theorem claim_C8 (t : TreeNode α) :
    (∀ x, x ∈ pre_order t ↔ x ∈ in_order t)
    ∧ (∀ x, x ∈ post_order t ↔ x ∈ in_order t)
    ∧ (pre_order t).length = (in_order t).length
    ∧ (post_order t).length = (in_order t).length :=
  ⟨fun _ => (pre_order_perm t).mem_iff, fun _ => (post_order_perm t).mem_iff,
   (pre_order_perm t).length_eq, (post_order_perm t).length_eq⟩

theorem find_min_node (l : TreeNode α) :
    ∀ (d : α) (r : TreeNode α), BSTInv (TreeNode.node d l r) →
      ∃ tr, find_node (TreeNode.node d l r) (minData d l)
        = some (TreeNode.node (minData d l) TreeNode.nil tr) := by
  induction l with
  | nil =>
    intro d r _
    refine ⟨r, ?_⟩
    simp [find_node, minData]
  | node d1 l1 r1 ihl ihr =>
    intro d r h
    simp only [BSTInv] at h
    have hmem := minData_mem d1 l1 r1
    have hlt : minData d1 l1 < d := h.1 _ hmem
    obtain ⟨tr, htr⟩ := ihl d1 r1 h.2.2.1
    refine ⟨tr, ?_⟩
    have hmd : minData d (TreeNode.node d1 l1 r1) = minData d1 l1 := rfl
    rw [hmd, show find_node (TreeNode.node d (TreeNode.node d1 l1 r1) r)
        (minData d1 l1) = find_node (TreeNode.node d1 l1 r1) (minData d1 l1) by
      simp [find_node, hlt]]
    exact htr

theorem insert_fst_eq_not_contain (t : TreeNode α) (v : α) :
    (insert t v).1 = !contain t v := by
  induction t with
  | nil => simp [insert, contain]
  | node d l r ihl ihr =>
    by_cases hv1 : v < d
    · simp only [insert, contain, if_pos hv1]
      exact ihl
    · by_cases hv2 : d < v
      · simp only [insert, contain, if_neg hv1, if_pos hv2]
        exact ihr
      · simp [insert, contain, hv1, hv2]

/-- Claim C3: on a BST whose root holds the sought value and has two
children, `remove` copies the minimum of the right subtree (found by
`TreeNode::min`, the in-order successor) into the root and recursively
removes that value from the right subtree; the node of the right subtree
holding that minimum has no left child, so the inner removal is the leaf
case or the only-right-child case and never the two-children case. -/
theorem claim_C3 (d : α) (l : TreeNode α) (rd : α) (rl rr : TreeNode α)
    (h : BSTInv (TreeNode.node d l (TreeNode.node rd rl rr)))
    (hl : l ≠ TreeNode.nil) :
    (remove (TreeNode.node d l (TreeNode.node rd rl rr)) d).2
      = TreeNode.node (minData rd rl) l
          (remove (TreeNode.node rd rl rr) (minData rd rl)).2
    ∧ ∃ tr, find_node (TreeNode.node rd rl rr) (minData rd rl)
        = some (TreeNode.node (minData rd rl) TreeNode.nil tr) := by
  constructor
  · cases l with
    | nil => exact absurd rfl hl
    | node ld ll lr =>
      rw [remove_two_children_eq ll lr rl rr (lt_irrefl d) (lt_irrefl d)]
  · simp only [BSTInv] at h
    exact find_min_node rl rd rr h.2.2.2

/-- Witness for claim C3: the spec's own scenario tree rooted at 50 with
children 30 and 70; the successor is 60, whose node has no left child. -/
theorem claim_C3_witness :
    (remove (TreeNode.node (50:Int)
        (TreeNode.node 30 (TreeNode.node 20 TreeNode.nil TreeNode.nil)
          (TreeNode.node 40 TreeNode.nil TreeNode.nil))
        (TreeNode.node 70 (TreeNode.node 60 TreeNode.nil TreeNode.nil)
          (TreeNode.node 80 TreeNode.nil TreeNode.nil))) 50).2
      = TreeNode.node
          (minData 70 (TreeNode.node 60 TreeNode.nil TreeNode.nil))
          (TreeNode.node 30 (TreeNode.node 20 TreeNode.nil TreeNode.nil)
            (TreeNode.node 40 TreeNode.nil TreeNode.nil))
          (remove (TreeNode.node 70 (TreeNode.node 60 TreeNode.nil TreeNode.nil)
            (TreeNode.node 80 TreeNode.nil TreeNode.nil))
            (minData 70 (TreeNode.node 60 TreeNode.nil TreeNode.nil))).2
    ∧ ∃ tr, find_node
        (TreeNode.node (70:Int) (TreeNode.node 60 TreeNode.nil TreeNode.nil)
          (TreeNode.node 80 TreeNode.nil TreeNode.nil))
        (minData 70 (TreeNode.node 60 TreeNode.nil TreeNode.nil))
      = some (TreeNode.node
          (minData 70 (TreeNode.node 60 TreeNode.nil TreeNode.nil))
          TreeNode.nil tr) :=
  claim_C3 50
    (TreeNode.node 30 (TreeNode.node 20 TreeNode.nil TreeNode.nil)
      (TreeNode.node 40 TreeNode.nil TreeNode.nil))
    70 (TreeNode.node 60 TreeNode.nil TreeNode.nil)
    (TreeNode.node 80 TreeNode.nil TreeNode.nil)
    (by decide) (by decide)

/-- Claim C4: failures are reported only through return values and are
full no-ops: on a BST not containing `v`, `remove` returns `false` and
leaves the tree unchanged, `contain` returns `false`, and `find_node`
returns `none`; on a BST containing `v`, `insert` returns `false` and
leaves the tree unchanged. -/
theorem claim_C4 (t : TreeNode α) (v : α) (h : BSTInv t) :
    (v ∉ in_order t →
        (remove t v).1 = false ∧ (remove t v).2 = t
        ∧ contain t v = false ∧ find_node t v = none)
    ∧ (v ∈ in_order t →
        (insert t v).1 = false ∧ (insert t v).2 = t) := by
  constructor
  · intro hm
    have hc : contain t v = false := by
      cases hcv : contain t v with
      | false => rfl
      | true => exact absurd ((contain_iff_mem t v h).mp hcv) hm
    have hr1 : (remove t v).1 = false := by
      rw [remove_fst_eq_contain]
      exact hc
    exact ⟨hr1, remove_false_eq t v hr1, hc, find_node_none t v h hm⟩
  · intro hm
    have hc : contain t v = true := (contain_iff_mem t v h).mpr hm
    have hb : (insert t v).1 = false := by
      rw [insert_fst_eq_not_contain, hc]
      rfl
    exact ⟨hb, insert_false_eq t v hb⟩

/-- Witness for claim C4 at the concrete BST `node 5 nil nil` and value 3. -/
theorem claim_C4_witness :
    ((3:Int) ∉ in_order (TreeNode.node (5:Int) TreeNode.nil TreeNode.nil) →
        (remove (TreeNode.node (5:Int) TreeNode.nil TreeNode.nil) 3).1 = false
        ∧ (remove (TreeNode.node (5:Int) TreeNode.nil TreeNode.nil) 3).2
            = TreeNode.node 5 TreeNode.nil TreeNode.nil
        ∧ contain (TreeNode.node (5:Int) TreeNode.nil TreeNode.nil) 3 = false
        ∧ find_node (TreeNode.node (5:Int) TreeNode.nil TreeNode.nil) 3 = none)
    ∧ ((3:Int) ∈ in_order (TreeNode.node (5:Int) TreeNode.nil TreeNode.nil) →
        (insert (TreeNode.node (5:Int) TreeNode.nil TreeNode.nil) 3).1 = false
        ∧ (insert (TreeNode.node (5:Int) TreeNode.nil TreeNode.nil) 3).2
            = TreeNode.node 5 TreeNode.nil TreeNode.nil) :=
  claim_C4 (TreeNode.node 5 TreeNode.nil TreeNode.nil) 3 (by decide)

/-- Claim C6: after inserting 50, 30, 70, 20, 40, 60, 80 and removing 50
(a two-children removal), `in_order()` is [20, 30, 40, 60, 70, 80],
`contain(50)` is false, and the root now holds 60, the minimum of the
right subtree. -/
theorem claim_C6 :
    in_order scenario = [20, 30, 40, 60, 70, 80]
    ∧ contain scenario 50 = false
    ∧ rootData scenario = some 60 := by
  refine ⟨?_, ?_, ?_⟩ <;> decide

theorem contain_insert (t : TreeNode α) (w v : α) (h : BSTInv t) :
    contain (insert t w).2 v = (if w = v then true else contain t v) := by
  have hL := contain_iff_mem (insert t w).2 v (insert_bst t w h)
  have hR := contain_iff_mem t v h
  have hmem := mem_insert_iff t w v
  by_cases hw : w = v
  · rw [if_pos hw]
    exact hL.mpr (hmem.mpr (Or.inl hw.symm))
  · rw [if_neg hw]
    cases hc : contain t v with
    | true => exact hL.mpr (hmem.mpr (Or.inr (hR.mp hc)))
    | false =>
      cases hc2 : contain (insert t w).2 v with
      | false => rfl
      | true =>
        exfalso
        rcases hmem.mp (hL.mp hc2) with hvw | hv
        · exact hw hvw.symm
        · rw [hR.mpr hv] at hc
          exact Bool.noConfusion hc

theorem contain_remove (t : TreeNode α) (w v : α) (h : BSTInv t) :
    contain (remove t w).2 v = (if w = v then false else contain t v) := by
  have hL := contain_iff_mem (remove t w).2 v (remove_bst t w h)
  have hR := contain_iff_mem t v h
  have hmem : v ∈ in_order (remove t w).2 ↔ (v ≠ w ∧ v ∈ in_order t) := by
    rw [in_order_remove t w h]
    exact (bstInv_nodup t h).mem_erase_iff
  by_cases hw : w = v
  · rw [if_pos hw]
    cases hc2 : contain (remove t w).2 v with
    | false => rfl
    | true =>
      exfalso
      exact (hmem.mp (hL.mp hc2)).1 hw.symm
  · rw [if_neg hw]
    have hvw : v ≠ w := fun hc => hw hc.symm
    cases hc : contain t v with
    | true => exact hL.mpr (hmem.mpr ⟨hvw, hR.mp hc⟩)
    | false =>
      cases hc2 : contain (remove t w).2 v with
      | false => rfl
      | true =>
        exfalso
        rw [hR.mpr (hmem.mp (hL.mp hc2)).2] at hc
        exact Bool.noConfusion hc

theorem contain_applyOps (ops : List (Op α)) (v : α) :
    ∀ t : TreeNode α, BSTInv t →
      contain (applyOps t ops) v
        = List.foldl (specMemStep v) (contain t v) ops := by
  induction ops with
  | nil => intro t _; rfl
  | cons op ops ih =>
    intro t h
    have hrec := ih (applyOp t op) (applyOp_bst t op h)
    rw [show applyOps t (op :: ops) = applyOps (applyOp t op) ops from rfl, hrec,
      List.foldl_cons]
    congr 1
    cases op with
    | ins w => exact contain_insert t w v h
    | rem w => exact contain_remove t w v h

/-- Claim C5: round-trip membership over any call history from the empty
tree — `contain(v)` on the final tree agrees with the spec's reference
membership: true exactly when the last call naming `v` was an insert
(successfully inserted and not subsequently removed), false when `v` was
never inserted or was removed after its last insert. -/
theorem claim_C5 (ops : List (Op α)) (v : α) :
    contain (applyOps TreeNode.nil ops) v = specMemAfter ops v :=
  contain_applyOps ops v TreeNode.nil trivial

theorem insert_length_true (t : TreeNode α) (v : α)
    (h : (insert t v).1 = true) :
    (in_order (insert t v).2).length = (in_order t).length + 1 := by
  have hp := (insert_true_perm t v h).length_eq
  simpa using hp

theorem remove_length_true (t : TreeNode α) (v : α) (h : BSTInv t)
    (hb : (remove t v).1 = true) :
    (in_order (remove t v).2).length + 1 = (in_order t).length := by
  rw [in_order_remove t v h]
  have hv : v ∈ in_order t := (contain_iff_mem t v h).mp (by
    rw [← remove_fst_eq_contain]
    exact hb)
  rw [List.length_erase_of_mem hv]
  have hpos : 0 < (in_order t).length :=
    List.length_pos.mpr (List.ne_nil_of_mem hv)
  omega

theorem run_inv (ops : List (Op α)) :
    ∀ (t : TreeNode α) (i r : Nat), BSTInv t →
      BSTInv (List.foldl runStep (t, i, r) ops).1
      ∧ ((in_order (List.foldl runStep (t, i, r) ops).1).length : Int)
          - ((List.foldl runStep (t, i, r) ops).2.1 : Int)
          + ((List.foldl runStep (t, i, r) ops).2.2 : Int)
        = ((in_order t).length : Int) - (i : Int) + (r : Int) := by
  induction ops with
  | nil => intro t i r h; exact ⟨h, rfl⟩
  | cons op ops ih =>
    intro t i r h
    rw [List.foldl_cons]
    cases op with
    | ins v =>
      have hstep : runStep (t, i, r) (Op.ins v)
          = ((insert t v).2, if (insert t v).1 then i + 1 else i, r) := rfl
      rw [hstep]
      obtain ⟨hb, he⟩ := ih (insert t v).2
        (if (insert t v).1 then i + 1 else i) r (insert_bst t v h)
      refine ⟨hb, ?_⟩
      rw [he]
      cases hbv : (insert t v).1 with
      | true =>
        rw [insert_length_true t v hbv]
        simp only [hbv, if_true]
        push_cast
        ring
      | false =>
        rw [insert_false_eq t v hbv]
        simp only [hbv, Bool.false_eq_true, if_false]
    | rem v =>
      have hstep : runStep (t, i, r) (Op.rem v)
          = ((remove t v).2, i, if (remove t v).1 then r + 1 else r) := rfl
      rw [hstep]
      obtain ⟨hb, he⟩ := ih (remove t v).2 i
        (if (remove t v).1 then r + 1 else r) (remove_bst t v h)
      refine ⟨hb, ?_⟩
      rw [he]
      cases hbv : (remove t v).1 with
      | true =>
        have hlen := remove_length_true t v h hbv
        simp only [hbv, if_true]
        push_cast
        omega
      | false =>
        rw [remove_false_eq t v hbv]
        simp only [hbv, Bool.false_eq_true, if_false]

/-- Claim C7: count conservation — for any call history from the empty
tree, the length of `in_order()` of the resulting tree equals the number
of true-returning inserts minus the number of true-returning removes. -/
theorem claim_C7 (ops : List (Op α)) :
    ((in_order (run ops).1).length : Int)
      = ((run ops).2.1 : Int) - ((run ops).2.2 : Int) := by
  have h2 := (run_inv ops TreeNode.nil 0 0 trivial).2
  simp only [run]
  simp only [in_order, List.length_nil, Nat.cast_zero] at h2
  omega

theorem insert_remove_eq (t : TreeNode α) (v : α) (h : BSTInv t)
    (hm : v ∉ in_order t) : (remove (insert t v).2 v).2 = t := by
  induction t with
  | nil =>
    rw [show (insert (TreeNode.nil : TreeNode α) v).2
        = TreeNode.node v TreeNode.nil TreeNode.nil from rfl,
      remove_leaf (lt_irrefl v) (lt_irrefl v)]
  | node d l r ihl ihr =>
    simp only [BSTInv] at h
    obtain ⟨h1, h2, h3, h4⟩ := h
    rw [mem_in_order_node] at hm
    push_neg at hm
    obtain ⟨hml, hmd, hmr⟩ := hm
    by_cases hv1 : v < d
    · rw [show (insert (TreeNode.node d l r) v).2
          = TreeNode.node d (insert l v).2 r by simp [insert, hv1],
        remove_lt _ _ hv1]
      simp only
      rw [ihl h3 hml]
    · by_cases hv2 : d < v
      · rw [show (insert (TreeNode.node d l r) v).2
            = TreeNode.node d l (insert r v).2 by simp [insert, hv1, hv2],
          remove_gt _ _ hv1 hv2]
        simp only
        rw [ihr h4 hmr]
      · exact absurd (le_antisymm (le_of_not_lt hv2) (le_of_not_lt hv1)) hmd

/-- Claim C10: on a BST not containing `v`, calling `insert(v)` and then
`remove(v)` restores a structurally identical tree — the tree is equal to
the original, hence so are its pre-order, in-order and post-order
sequences. -/
theorem claim_C10 (t : TreeNode α) (v : α) (h : BSTInv t)
    (hc : contain t v = false) :
    (remove (insert t v).2 v).2 = t
    ∧ pre_order (remove (insert t v).2 v).2 = pre_order t
    ∧ in_order (remove (insert t v).2 v).2 = in_order t
    ∧ post_order (remove (insert t v).2 v).2 = post_order t := by
  have hm : v ∉ in_order t := by
    intro hmem
    rw [(contain_iff_mem t v h).mpr hmem] at hc
    exact Bool.noConfusion hc
  have heq := insert_remove_eq t v h hm
  exact ⟨heq, by rw [heq], by rw [heq], by rw [heq]⟩

/-- Witness for claim C10 at the BST `node 5 nil (node 8 nil nil)` and the
absent value 3. -/
theorem claim_C10_witness :
    (remove (insert (TreeNode.node (5:Int) TreeNode.nil
        (TreeNode.node 8 TreeNode.nil TreeNode.nil)) 3).2 3).2
      = TreeNode.node (5:Int) TreeNode.nil
          (TreeNode.node 8 TreeNode.nil TreeNode.nil)
    ∧ pre_order (remove (insert (TreeNode.node (5:Int) TreeNode.nil
        (TreeNode.node 8 TreeNode.nil TreeNode.nil)) 3).2 3).2
      = pre_order (TreeNode.node (5:Int) TreeNode.nil
          (TreeNode.node 8 TreeNode.nil TreeNode.nil))
    ∧ in_order (remove (insert (TreeNode.node (5:Int) TreeNode.nil
        (TreeNode.node 8 TreeNode.nil TreeNode.nil)) 3).2 3).2
      = in_order (TreeNode.node (5:Int) TreeNode.nil
          (TreeNode.node 8 TreeNode.nil TreeNode.nil))
    ∧ post_order (remove (insert (TreeNode.node (5:Int) TreeNode.nil
        (TreeNode.node 8 TreeNode.nil TreeNode.nil)) 3).2 3).2
      = post_order (TreeNode.node (5:Int) TreeNode.nil
          (TreeNode.node 8 TreeNode.nil TreeNode.nil)) :=
  claim_C10 (TreeNode.node 5 TreeNode.nil
    (TreeNode.node 8 TreeNode.nil TreeNode.nil)) 3 (by decide) (by decide)

theorem insertF_complete : ∀ (n : Nat) (t : TreeNode α) (v : α), size t < n →
    insertF n t v = some (insert t v) := by
  intro n
  induction n with
  | zero => intro t v hlt; exact absurd hlt (Nat.not_lt_zero _)
  | succ n ih =>
    intro t v hlt
    cases t with
    | nil => rfl
    | node d l r =>
      simp only [size] at hlt
      have hl : size l < n := by omega
      have hr : size r < n := by omega
      by_cases hv1 : v < d
      · simp [insertF, hv1, ih l v hl, insert]
      · by_cases hv2 : d < v
        · simp [insertF, hv1, hv2, ih r v hr, insert]
        · simp [insertF, hv1, hv2, insert]

theorem containF_complete : ∀ (n : Nat) (t : TreeNode α) (v : α), size t < n →
    containF n t v = some (contain t v) := by
  intro n
  induction n with
  | zero => intro t v hlt; exact absurd hlt (Nat.not_lt_zero _)
  | succ n ih =>
    intro t v hlt
    cases t with
    | nil => rfl
    | node d l r =>
      simp only [size] at hlt
      have hl : size l < n := by omega
      have hr : size r < n := by omega
      by_cases hv1 : v < d
      · simp [containF, hv1, ih l v hl, contain]
      · by_cases hv2 : d < v
        · simp [containF, hv1, hv2, ih r v hr, contain]
        · simp [containF, hv1, hv2, contain]

theorem find_nodeF_complete : ∀ (n : Nat) (t : TreeNode α) (v : α),
    size t < n → find_nodeF n t v = some (find_node t v) := by
  intro n
  induction n with
  | zero => intro t v hlt; exact absurd hlt (Nat.not_lt_zero _)
  | succ n ih =>
    intro t v hlt
    cases t with
    | nil => rfl
    | node d l r =>
      simp only [size] at hlt
      have hl : size l < n := by omega
      have hr : size r < n := by omega
      by_cases hv1 : v < d
      · simp [find_nodeF, hv1, ih l v hl, find_node]
      · by_cases hv2 : d < v
        · simp [find_nodeF, hv1, hv2, ih r v hr, find_node]
        · simp [find_nodeF, hv1, hv2, find_node]

theorem removeF_complete : ∀ (n : Nat) (t : TreeNode α) (v : α), size t < n →
    removeF n t v = some (remove t v) := by
  intro n
  induction n with
  | zero => intro t v hlt; exact absurd hlt (Nat.not_lt_zero _)
  | succ n ih =>
    intro t v hlt
    cases t with
    | nil => rfl
    | node d l r =>
      simp only [size] at hlt
      have hl : size l < n := by omega
      have hr : size r < n := by omega
      by_cases hv1 : v < d
      · rw [remove_lt l r hv1, removeF.eq_def]
        simp [hv1, ih l v hl]
      · by_cases hv2 : d < v
        · rw [remove_gt l r hv1 hv2, removeF.eq_def]
          simp [hv1, hv2, ih r v hr]
        · cases l with
          | nil =>
            cases r with
            | nil =>
              rw [remove_leaf hv1 hv2, removeF.eq_def]
              simp [hv1, hv2]
            | node rd rl rr =>
              rw [remove_only_right rl rr hv1 hv2, removeF.eq_def]
              simp [hv1, hv2]
          | node ld ll lr =>
            cases r with
            | nil =>
              rw [remove_only_left ll lr hv1 hv2, removeF.eq_def]
              simp [hv1, hv2]
            | node rd rl rr =>
              rw [remove_two_children_eq ll lr rl rr hv1 hv2, removeF.eq_def]
              simp [hv1, hv2, ih (TreeNode.node rd rl rr) (minData rd rl) hr]

theorem in_orderF_complete : ∀ (n : Nat) (t : TreeNode α), size t < n →
    in_orderF n t = some (in_order t) := by
  intro n
  induction n with
  | zero => intro t hlt; exact absurd hlt (Nat.not_lt_zero _)
  | succ n ih =>
    intro t hlt
    cases t with
    | nil => rfl
    | node d l r =>
      simp only [size] at hlt
      have hl : size l < n := by omega
      have hr : size r < n := by omega
      simp [in_orderF, ih l hl, ih r hr, in_order]

theorem pre_orderF_complete : ∀ (n : Nat) (t : TreeNode α), size t < n →
    pre_orderF n t = some (pre_order t) := by
  intro n
  induction n with
  | zero => intro t hlt; exact absurd hlt (Nat.not_lt_zero _)
  | succ n ih =>
    intro t hlt
    cases t with
    | nil => rfl
    | node d l r =>
      simp only [size] at hlt
      have hl : size l < n := by omega
      have hr : size r < n := by omega
      simp [pre_orderF, ih l hl, ih r hr, pre_order]

theorem post_orderF_complete : ∀ (n : Nat) (t : TreeNode α), size t < n →
    post_orderF n t = some (post_order t) := by
  intro n
  induction n with
  | zero => intro t hlt; exact absurd hlt (Nat.not_lt_zero _)
  | succ n ih =>
    intro t hlt
    cases t with
    | nil => rfl
    | node d l r =>
      simp only [size] at hlt
      have hl : size l < n := by omega
      have hr : size r < n := by omega
      simp [post_orderF, ih l hl, ih r hr, post_order]

theorem minF_complete : ∀ (n : Nat) (d : α) (l : TreeNode α), size l < n →
    minF n d l = some (minData d l) := by
  intro n
  induction n with
  | zero => intro d l hlt; exact absurd hlt (Nat.not_lt_zero _)
  | succ n ih =>
    intro d l hlt
    cases l with
    | nil => rfl
    | node d1 l1 r1 =>
      simp only [size] at hlt
      have hl : size l1 < n := by omega
      rw [show minF (n + 1) d (TreeNode.node d1 l1 r1) = minF n d1 l1 from rfl,
        show minData d (TreeNode.node d1 l1 r1) = minData d1 l1 from rfl]
      exact ih d1 l1 hl

theorem maxF_complete : ∀ (n : Nat) (d : α) (r : TreeNode α), size r < n →
    maxF n d r = some (maxData d r) := by
  intro n
  induction n with
  | zero => intro d r hlt; exact absurd hlt (Nat.not_lt_zero _)
  | succ n ih =>
    intro d r hlt
    cases r with
    | nil => rfl
    | node d1 l1 r1 =>
      simp only [size] at hlt
      have hr : size r1 < n := by omega
      rw [show maxF (n + 1) d (TreeNode.node d1 l1 r1) = maxF n d1 r1 from rfl,
        show maxData d (TreeNode.node d1 l1 r1) = maxData d1 r1 from rfl]
      exact ih d1 r1 hr

/-- Claim C9: every operation terminates on every finite tree — run with
any fuel bound exceeding the node count, the fuel-bounded interpreters of
`insert`, `remove`, `contain`, `find_node` and the three traversals all
complete (never exhaust the fuel) and agree with the total functions, and
the iterative `min`/`max` descents likewise; in particular `remove`'s
two-children case, which re-invokes `remove` on the right subtree with the
successor's value, always runs to completion. -/
theorem claim_C9 (n : Nat) (t : TreeNode α) (v : α) (h : size t < n) :
    insertF n t v = some (insert t v)
    ∧ removeF n t v = some (remove t v)
    ∧ containF n t v = some (contain t v)
    ∧ find_nodeF n t v = some (find_node t v)
    ∧ in_orderF n t = some (in_order t)
    ∧ pre_orderF n t = some (pre_order t)
    ∧ post_orderF n t = some (post_order t)
    ∧ minF n v t = some (minData v t)
    ∧ maxF n v t = some (maxData v t) :=
  ⟨insertF_complete n t v h, removeF_complete n t v h,
   containF_complete n t v h, find_nodeF_complete n t v h,
   in_orderF_complete n t h, pre_orderF_complete n t h,
   post_orderF_complete n t h, minF_complete n v t h, maxF_complete n v t h⟩

/-- Witness for claim C9 at fuel 3 and the two-node tree
`node 2 (node 1 nil nil) nil`. -/
theorem claim_C9_witness :
    insertF 3 (TreeNode.node (2:Int) (TreeNode.node 1 TreeNode.nil TreeNode.nil)
        TreeNode.nil) 2
      = some (insert (TreeNode.node (2:Int)
          (TreeNode.node 1 TreeNode.nil TreeNode.nil) TreeNode.nil) 2)
    ∧ removeF 3 (TreeNode.node (2:Int) (TreeNode.node 1 TreeNode.nil TreeNode.nil)
        TreeNode.nil) 2
      = some (remove (TreeNode.node (2:Int)
          (TreeNode.node 1 TreeNode.nil TreeNode.nil) TreeNode.nil) 2)
    ∧ containF 3 (TreeNode.node (2:Int) (TreeNode.node 1 TreeNode.nil TreeNode.nil)
        TreeNode.nil) 2
      = some (contain (TreeNode.node (2:Int)
          (TreeNode.node 1 TreeNode.nil TreeNode.nil) TreeNode.nil) 2)
    ∧ find_nodeF 3 (TreeNode.node (2:Int)
        (TreeNode.node 1 TreeNode.nil TreeNode.nil) TreeNode.nil) 2
      = some (find_node (TreeNode.node (2:Int)
          (TreeNode.node 1 TreeNode.nil TreeNode.nil) TreeNode.nil) 2)
    ∧ in_orderF 3 (TreeNode.node (2:Int)
        (TreeNode.node 1 TreeNode.nil TreeNode.nil) TreeNode.nil)
      = some (in_order (TreeNode.node (2:Int)
          (TreeNode.node 1 TreeNode.nil TreeNode.nil) TreeNode.nil))
    ∧ pre_orderF 3 (TreeNode.node (2:Int)
        (TreeNode.node 1 TreeNode.nil TreeNode.nil) TreeNode.nil)
      = some (pre_order (TreeNode.node (2:Int)
          (TreeNode.node 1 TreeNode.nil TreeNode.nil) TreeNode.nil))
    ∧ post_orderF 3 (TreeNode.node (2:Int)
        (TreeNode.node 1 TreeNode.nil TreeNode.nil) TreeNode.nil)
      = some (post_order (TreeNode.node (2:Int)
          (TreeNode.node 1 TreeNode.nil TreeNode.nil) TreeNode.nil))
    ∧ minF 3 (2:Int) (TreeNode.node (2:Int)
        (TreeNode.node 1 TreeNode.nil TreeNode.nil) TreeNode.nil)
      = some (minData 2 (TreeNode.node (2:Int)
          (TreeNode.node 1 TreeNode.nil TreeNode.nil) TreeNode.nil))
    ∧ maxF 3 (2:Int) (TreeNode.node (2:Int)
        (TreeNode.node 1 TreeNode.nil TreeNode.nil) TreeNode.nil)
      = some (maxData 2 (TreeNode.node (2:Int)
          (TreeNode.node 1 TreeNode.nil TreeNode.nil) TreeNode.nil)) :=
  claim_C9 3 (TreeNode.node 2 (TreeNode.node 1 TreeNode.nil TreeNode.nil)
    TreeNode.nil) 2 (by decide)

end BST
